import Mathlib

/-!
Shallow embedding of the r/place analysis pipeline
(PolarsPlace.py, botdetector.py, botnet_detector.py, preprocess.py).

Events carry `(user_id_int, seconds_since_start, x, y, color_name)`.
Polars expressions are translated as follows:
* `expr.over(key)` computes the expression inside each key-partition
  (rows of the partition taken in frame order), so it is embedded as a
  per-group computation on the list of that group's rows;
* `shift(1)` followed by subtraction becomes the consecutive-difference
  list, with `none`/a fill value in the first slot of each group;
* aggregations (`mean`, `std`, `len`, `n_unique`) ignore null entries,
  which is embedded by `List.filterMap id` on `Option` columns;
* float comparisons and means are embedded over `Rat` (the quantities
  involved are ratios of integers, exactly representable).
-/

namespace RPlace

/-- One row of the processed parquet file: `user_id_int`,
`seconds_since_start`, `x`, `y`, `color_name`.  Coordinates are `Nat`
because preprocess.py derives them as `raw_index % 2000` and
`raw_index // 2000` of a non-negative raw index. -/
structure Event where
  user : Nat
  t : Int
  x : Nat
  y : Nat
  color : String
deriving DecidableEq, Repr

/-! ## Gap-based clusterer

`PolarsPlace.py` (sessions) computes, per user partition sorted by time,
`diff = t - t.shift(1)` with `fill_null(0)`, then
`(diff > 900).cast(Int32).cum_sum()`.
`botnet_detector.py` (bursts) computes, per zone partition sorted by time,
`time_diff = t - t.shift(1)` with `fill_null(9999)`, then
`(time_diff > 150).cum_sum()`. -/

/-- Consecutive differences of a time column, the first slot (where
`shift(1)` yields null) replaced by the fill value, as in
`(col - col.shift(1)).fill_null(f)`. -/
def diffsFill (f : Int) : List Int → List Int
  | [] => []
  | t :: rest => f :: List.zipWith (fun a b => a - b) rest (t :: rest)

/-- Running (inclusive) sum with accumulator, embedding `cum_sum`. -/
def cumSumAux (acc : Nat) : List Nat → List Nat
  | [] => []
  | x :: xs => (acc + x) :: cumSumAux (acc + x) xs

/-- Polars `cum_sum` on a column of naturals. -/
def cumSum (l : List Nat) : List Nat := cumSumAux 0 l

/-- Cluster ids of a (sorted) time column: cumulative count of
gap-exceedances, where the first slot's diff is the fill value `f`.
Embeds `(diff > thr).cast(Int32).cum_sum()`. -/
def gapClusterIds (thr f : Int) (ts : List Int) : List Nat :=
  cumSum ((diffsFill f ts).map (fun d => if thr < d then 1 else 0))

/-- Session ids of one user's sorted time column (PolarsPlace.py:
threshold 900 s, first diff filled with 0). -/
def sessionIds (ts : List Int) : List Nat := gapClusterIds 900 0 ts

/-- Burst ids of one zone's sorted attack-second column
(botnet_detector.py: threshold 150 s, first diff filled with 9999). -/
def burstIds (ts : List Int) : List Nat := gapClusterIds 150 9999 ts

theorem diffsFill_length (f : Int) (ts : List Int) :
    (diffsFill f ts).length = ts.length := by
  cases ts with
  | nil => rfl
  | cons t rest =>
    simp [diffsFill, List.length_zipWith]

theorem cumSumAux_length (acc : Nat) (l : List Nat) :
    (cumSumAux acc l).length = l.length := by
  induction l generalizing acc with
  | nil => rfl
  | cons x xs ih => simp [cumSumAux, ih]

theorem cumSum_length (l : List Nat) : (cumSum l).length = l.length :=
  cumSumAux_length 0 l

theorem gapClusterIds_length (thr f : Int) (ts : List Int) :
    (gapClusterIds thr f ts).length = ts.length := by
  simp [gapClusterIds, cumSum_length, diffsFill_length]

theorem cumSumAux_head (acc : Nat) (x : Nat) (xs : List Nat) :
    (cumSumAux acc (x :: xs)).getD 0 0 = acc + x := by
  simp [cumSumAux]

theorem cumSumAux_getD_succ (acc : Nat) (l : List Nat) (i : Nat)
    (h : i + 1 < l.length) :
    (cumSumAux acc l).getD (i + 1) 0 =
      (cumSumAux acc l).getD i 0 + l.getD (i + 1) 0 := by
  induction l generalizing acc i with
  | nil => simp at h
  | cons x xs ih =>
    cases i with
    | zero =>
      cases xs with
      | nil => simp at h
      | cons y ys => simp [cumSumAux, Nat.add_assoc]
    | succ j =>
      have hj : j + 1 < xs.length := by
        simpa using Nat.lt_of_succ_lt_succ h
      simpa [cumSumAux] using ih (acc + x) j hj

theorem diffsFill_getD_succ (f : Int) (ts : List Int) (i : Nat)
    (h : i + 1 < ts.length) :
    (diffsFill f ts).getD (i + 1) 0 = ts.getD (i + 1) 0 - ts.getD i 0 := by
  cases ts with
  | nil => simp at h
  | cons t rest =>
    have hi : i < rest.length := by simpa using Nat.lt_of_succ_lt_succ h
    have hlen : i < (List.zipWith (fun a b => a - b) rest (t :: rest)).length := by
      simp [List.length_zipWith]
      omega
    have h1 : (diffsFill f (t :: rest)).getD (i + 1) 0 =
        (List.zipWith (fun a b => a - b) rest (t :: rest)).getD i 0 := by
      simp [diffsFill]
    rw [h1, List.getD_eq_getElem _ _ hlen, List.getElem_zipWith]
    have h2 : (t :: rest).getD (i + 1) 0 = rest.getD i 0 := by simp
    have h3 : rest.getD i 0 = rest[i] := List.getD_eq_getElem _ _ hi
    have h4 : (t :: rest).getD i 0 = (t :: rest)[i] :=
      List.getD_eq_getElem _ _ (by simpa using Nat.lt_succ_of_lt hi)
    rw [h2, h3, h4]

/-- Recurrence of the gap clusterer embedded from the source: the id of
row `i+1` is the id of row `i` plus one exactly when the time gap
exceeds the threshold. -/
theorem gapClusterIds_getD_succ (thr f : Int) (ts : List Int) (i : Nat)
    (h : i + 1 < ts.length) :
    (gapClusterIds thr f ts).getD (i + 1) 0 =
      (gapClusterIds thr f ts).getD i 0 +
        (if thr < ts.getD (i + 1) 0 - ts.getD i 0 then 1 else 0) := by
  have hflag : ((diffsFill f ts).map (fun d => if thr < d then 1 else 0)).getD (i + 1) 0
      = (if thr < ts.getD (i + 1) 0 - ts.getD i 0 then 1 else 0) := by
    have hd : i + 1 < (diffsFill f ts).length := by
      rw [diffsFill_length]; exact h
    have hm : i + 1 < ((diffsFill f ts).map (fun d => if thr < d then 1 else 0)).length := by
      simpa using hd
    rw [List.getD_eq_getElem _ _ hm, List.getElem_map,
      ← List.getD_eq_getElem _ 0 hd, diffsFill_getD_succ f ts i h]
  have hlen : i + 1 < ((diffsFill f ts).map (fun d => if thr < d then 1 else 0)).length := by
    simp [diffsFill_length]; exact h
  calc (gapClusterIds thr f ts).getD (i + 1) 0
      = (gapClusterIds thr f ts).getD i 0 +
        ((diffsFill f ts).map (fun d => if thr < d then 1 else 0)).getD (i + 1) 0 :=
        cumSumAux_getD_succ 0 _ i hlen
    _ = _ := by rw [hflag]

theorem gapClusterIds_head (thr f : Int) (t : Int) (ts : List Int) :
    (gapClusterIds thr f (t :: ts)).getD 0 0 = (if thr < f then 1 else 0) := by
  simp [gapClusterIds, diffsFill, cumSum, cumSumAux]

/-! ## Per-group pipeline (the `over(key)` embedding)

Both clustering call sites sort rows by `(key, time)` and compute
diff/cum_sum windowed `.over(key)`; a window expression over a key
computes on each key's rows alone, so the embedding extracts one group's
(sorted) time column and runs the clusterer on it. -/

/-- Ascending sort of a time column (the per-group effect of
`sort([key, "seconds_since_start"])`).  Insertion sort is used because it
is structurally recursive (kernel-evaluable); an ascending permutation
of an integer multiset is unique, so this is the same column any correct
sort produces. -/
def sortTimes (ts : List Int) : List Int := List.insertionSort (· ≤ ·) ts

/-- The sorted time column of the rows of group `k`; a row is a
`(key, seconds_since_start)` pair (key = `user_id_int` for sessions,
`zone_id` for bursts). -/
def groupTimes (rows : List (Nat × Int)) (k : Nat) : List Int :=
  sortTimes ((rows.filter (fun r => r.1 == k)).map (fun r => r.2))

/-- Cluster assignment of group `k`: each of its times paired with its
cluster id. -/
def gapAssignment (thr f : Int) (rows : List (Nat × Int)) (k : Nat) :
    List (Int × Nat) :=
  (groupTimes rows k).zip (gapClusterIds thr f (groupTimes rows k))

theorem groupTimes_append_other (rows others : List (Nat × Int)) (k : Nat)
    (h : ∀ r ∈ others, r.1 ≠ k) :
    groupTimes (rows ++ others) k = groupTimes rows k := by
  unfold groupTimes
  have hnil : others.filter (fun r => r.1 == k) = [] := by
    rw [List.filter_eq_nil_iff]
    intro r hr
    simpa using h r hr
  rw [List.filter_append, hnil, List.append_nil]

theorem groupTimes_erase_other (rows : List (Nat × Int)) (k v : Nat)
    (hvk : v ≠ k) :
    groupTimes (rows.filter (fun r => !(r.1 == v))) k = groupTimes rows k := by
  unfold groupTimes
  rw [List.filter_filter]
  have : ∀ r ∈ rows, ((r.1 == k) && !(r.1 == v)) = (r.1 == k) := by
    intro r _
    by_cases hk : r.1 = k
    · simp [hk, Ne.symm hvk]
    · simp [hk]
  rw [List.filter_congr this]

/-! ## Claims C1, C2, C9 -/

/-- Claim C1, counterexample: burst clustering does not assign id 0 to
the first attack-second of a zone.  `fill_null(9999)` makes the first
diff 9999 > 150, so a zone whose only attack-second is at t = 0 gets
burst id 1, not 0 — burst ids do not start at 0 the way session ids do. -/
theorem c1_burst_first_id_counterexample :
    burstIds [(0 : Int)] = [1] ∧ burstIds [(0 : Int)] ≠ [0] := by
  constructor
  · decide
  · decide

/-- Claim C1 (amended): the first item of a user group gets session id 0
(diff filled with 0), while the first attack-second of a zone gets burst
id 1 (diff filled with 9999 > 150, so the first row itself counts as a
gap-exceedance); in both pipelines every later id follows the same rule
`id[i] = id[i-1] + (1 if diff[i] > threshold else 0)`. -/
theorem c1_first_item_ids (ts : List Int) (h : ts ≠ []) :
    (sessionIds ts).getD 0 0 = 0 ∧ (burstIds ts).getD 0 0 = 1 ∧
      (∀ (thr f : Int) (i : Nat), i + 1 < ts.length →
        (gapClusterIds thr f ts).getD (i + 1) 0 =
          (gapClusterIds thr f ts).getD i 0 +
            (if thr < ts.getD (i + 1) 0 - ts.getD i 0 then 1 else 0)) := by
  obtain ⟨t, rest, rfl⟩ := List.exists_cons_of_ne_nil h
  refine ⟨?_, ?_, ?_⟩
  · simpa using gapClusterIds_head 900 0 t rest
  · simpa using gapClusterIds_head 150 9999 t rest
  · intro thr f i hi
    exact gapClusterIds_getD_succ thr f _ i hi

theorem c1_first_item_ids_witness :
    (sessionIds [(0 : Int), 901]).getD 0 0 = 0 ∧
      (burstIds [(0 : Int), 901]).getD 0 0 = 1 :=
  ⟨(c1_first_item_ids [(0 : Int), 901] (by decide)).1,
    (c1_first_item_ids [(0 : Int), 901] (by decide)).2.1⟩

/-- Claim C2: a gap equal to the threshold keeps two consecutive items in
the same cluster and a gap exceeding it starts a new one (strict `>`),
for any threshold and fill value; concretely, with the 900 s session
threshold, events at t = 0 and t = 900 share the session id and events
at t = 0 and t = 901 do not, and likewise for the 150 s burst threshold
(burst ids starting at 1 because of the 9999 fill). -/
theorem c2_threshold_boundary :
    (∀ (thr f : Int) (ts : List Int) (i : Nat), i + 1 < ts.length →
      ((ts.getD (i + 1) 0 - ts.getD i 0 ≤ thr →
          (gapClusterIds thr f ts).getD (i + 1) 0 =
            (gapClusterIds thr f ts).getD i 0) ∧
        (thr < ts.getD (i + 1) 0 - ts.getD i 0 →
          (gapClusterIds thr f ts).getD (i + 1) 0 =
            (gapClusterIds thr f ts).getD i 0 + 1))) ∧
      sessionIds [0, 900] = [0, 0] ∧ sessionIds [0, 901] = [0, 1] ∧
      burstIds [0, 150] = [1, 1] ∧ burstIds [0, 151] = [1, 2] := by
  refine ⟨?_, by decide, by decide, by decide, by decide⟩
  intro thr f ts i hi
  have hrec := gapClusterIds_getD_succ thr f ts i hi
  constructor
  · intro hle
    rw [hrec, if_neg (not_lt.mpr hle), Nat.add_zero]
  · intro hgt
    rw [hrec, if_pos hgt]

theorem c2_threshold_boundary_witness :
    (gapClusterIds 900 0 [(0 : Int), 900]).getD 1 0 =
      (gapClusterIds 900 0 [(0 : Int), 900]).getD 0 0 :=
  (c2_threshold_boundary.1 900 0 [(0 : Int), 900] 0 (by decide)).1 (by decide)

/-- Claim C9: gap clustering is deterministic (a pure function of the
rows) and partition independent: the assignment of group `k` is
unchanged by appending rows of other keys or by deleting all rows of a
different key `v`. -/
theorem c9_partition_independence (thr f : Int) (rows others : List (Nat × Int))
    (k : Nat) (h : ∀ r ∈ others, r.1 ≠ k) :
    (∀ rows₂, rows = rows₂ →
        gapAssignment thr f rows k = gapAssignment thr f rows₂ k) ∧
      gapAssignment thr f (rows ++ others) k = gapAssignment thr f rows k ∧
      (∀ v, v ≠ k →
        gapAssignment thr f (rows.filter (fun r => !(r.1 == v))) k =
          gapAssignment thr f rows k) := by
  refine ⟨?_, ?_, ?_⟩
  · intro rows₂ hr
    rw [hr]
  · unfold gapAssignment
    rw [groupTimes_append_other rows others k h]
  · intro v hv
    unfold gapAssignment
    rw [groupTimes_erase_other rows k v hv]

theorem c9_partition_independence_witness :
    gapAssignment 900 0 ([(1, 0), (1, 901)] ++ [(2, 5)]) 1 =
      gapAssignment 900 0 [(1, 0), (1, 901)] 1 :=
  (c9_partition_independence 900 0 [(1, 0), (1, 901)] [(2, 5)] 1
    (by decide)).2.1

/-! ## Behavioral classifiers (botdetector.py)

Each classifier theorem below is stated over one user's event rows in
chronological order (the per-user effect of
`sort(["user_id_int", "seconds_since_start"])`; polars does not promise
a tie order, so the sorted row list is taken as the input). -/

/-- Consecutive differences of a column (`col - col.shift(1)` restricted
to the rows where the shift is non-null). -/
def deltas : List Int → List Int
  | [] => []
  | t :: rest => List.zipWith (fun a b => a - b) rest (t :: rest)

/-- The `time_diff` column as polars materializes it: null in the first
row of the user partition, the consecutive difference elsewhere. -/
def shiftDiffCol (ts : List Int) : List (Option Int) :=
  match ts with
  | [] => []
  | _ :: _ => none :: (deltas ts).map some

/-- Integer sum of a column. -/
def intSum (xs : List Int) : Int := xs.foldr (fun a b => a + b) 0

/-- Sum of the squared deviations from the mean, scaled by `n^2` so it
stays in the integers: `sqDevScaled xs = n^2 * Σ (x - T/n)^2
= Σ (n*x - T)^2` with `n = length`, `T = sum`. -/
def sqDevScaled (xs : List Int) : Int :=
  xs.foldr
    (fun a b =>
      ((xs.length : Int) * a - intSum xs) * ((xs.length : Int) * a - intSum xs) + b)
    0

/-- Timing-regularity classifier of botdetector.py on one user's sorted
time column: `std(time_diff) < 1` with polars' default `ddof = 1`.
`std` of fewer than two non-null deltas is null, and a null comparison
keeps the user out of the filter.  Otherwise `std < 1` holds exactly
when the sample variance `Σ (d - T/n)^2 / (n-1)` is `< 1` (both sides of
the `std` comparison are non-negative), which — multiplying through by
`n^2 * (n-1) > 0` — is the exact integer comparison used here. -/
def lowStdFlag (ts : List Int) : Bool :=
  let ds := (shiftDiffCol ts).filterMap id
  if ds.length ≤ 1 then false
  else
    decide (sqDevScaled ds <
      ((ds.length : Int) - 1) * (ds.length : Int) * (ds.length : Int))

/-- Sample variance (divide by `n - 1`, polars `ddof = 1`) of an integer
list as an exact rational; 0 for fewer than two values. -/
def sampleVar (xs : List Int) : Rat :=
  if xs.length ≤ 1 then 0
  else
    (xs.foldr
        (fun (a : Int) (b : Rat) =>
          ((a : Rat) - (intSum xs : Rat) / (xs.length : Rat)) *
              ((a : Rat) - (intSum xs : Rat) / (xs.length : Rat)) + b)
        0) /
      ((xs.length : Rat) - 1)

/-- Population variance (divide by `n`) of an integer list, the quantity
named by the claim ("population standard deviation, dividing by n"); 0
for the empty list.  The population std is `< 1` exactly when this is. -/
def popVar (xs : List Int) : Rat :=
  if xs.length = 0 then 0
  else
    (xs.foldr
        (fun (a : Int) (b : Rat) =>
          ((a : Rat) - (intSum xs : Rat) / (xs.length : Rat)) *
              ((a : Rat) - (intSum xs : Rat) / (xs.length : Rat)) + b)
        0) /
      (xs.length : Rat)

theorem shiftDiffCol_filterMap (ts : List Int) :
    (shiftDiffCol ts).filterMap id = deltas ts := by
  cases ts with
  | nil => rfl
  | cons t rest =>
    simp [shiftDiffCol, deltas, List.filterMap_cons]

theorem deltas_length (ts : List Int) :
    (deltas ts).length = ts.length - 1 := by
  cases ts with
  | nil => rfl
  | cons t rest => simp [deltas, List.length_zipWith]

theorem foldr_sqdev_scaled (l : List Int) (n T : Int) (hn : n ≠ 0) :
    (l.foldr
        (fun (a : Int) (b : Rat) =>
          ((a : Rat) - (T : Rat) / (n : Rat)) *
              ((a : Rat) - (T : Rat) / (n : Rat)) + b)
        0) * ((n : Rat) * (n : Rat)) =
      ((l.foldr (fun a b => (n * a - T) * (n * a - T) + b) 0 : Int) : Rat) := by
  induction l with
  | nil => simp
  | cons x xs ih =>
    have hnQ : ((n : Rat)) ≠ 0 := Int.cast_ne_zero.mpr hn
    have hx : (((x : Rat) - (T : Rat) / (n : Rat)) *
        ((x : Rat) - (T : Rat) / (n : Rat))) * ((n : Rat) * (n : Rat)) =
        (((n * x - T : Int) : Rat) * ((n * x - T : Int) : Rat)) := by
      push_cast
      field_simp
      ring
    simp only [List.foldr_cons]
    rw [add_mul, hx, ih]
    push_cast
    ring

/-- Bridge: the rational sample-variance comparison of the source's
`std() < 1` filter equals the scaled integer comparison. -/
theorem sampleVar_lt_one_iff (xs : List Int) (h : 2 ≤ xs.length) :
    sampleVar xs < 1 ↔
      sqDevScaled xs <
        ((xs.length : Int) - 1) * (xs.length : Int) * (xs.length : Int) := by
  have hlen : ¬(xs.length ≤ 1) := by omega
  have hn : (xs.length : Int) ≠ 0 := by
    have : 0 < xs.length := by omega
    exact_mod_cast Nat.pos_iff_ne_zero.mp this
  have hkey := foldr_sqdev_scaled xs (xs.length : Int) (intSum xs) hn
  push_cast at hkey
  have hSA : ((sqDevScaled xs : Int) : Rat) =
      (xs.foldr
          (fun (a : Int) (b : Rat) =>
            ((a : Rat) - (intSum xs : Rat) / (xs.length : Rat)) *
                ((a : Rat) - (intSum xs : Rat) / (xs.length : Rat)) + b)
          0) * ((xs.length : Rat) * (xs.length : Rat)) := by
    unfold sqDevScaled
    exact hkey.symm
  have hpos : (0 : Rat) < ((xs.length : Rat) - 1) := by
    have : (2 : Rat) ≤ (xs.length : Rat) := by exact_mod_cast h
    linarith
  have hnn : (0 : Rat) < (xs.length : Rat) * (xs.length : Rat) := by
    have h0 : (0 : Rat) < (xs.length : Rat) := by positivity
    positivity
  have hcast : (sqDevScaled xs <
      ((xs.length : Int) - 1) * (xs.length : Int) * (xs.length : Int)) ↔
      (((sqDevScaled xs : Int) : Rat) <
        ((xs.length : Rat) - 1) * ((xs.length : Rat) * (xs.length : Rat))) := by
    constructor
    · intro h'
      have h2 : ((sqDevScaled xs : Int) : Rat) <
          ((((xs.length : Int) - 1) * (xs.length : Int) * (xs.length : Int) : Int) : Rat) := by
        exact_mod_cast h'
      push_cast at h2
      linear_combination h2
    · intro h'
      have h2 : ((sqDevScaled xs : Int) : Rat) <
          ((((xs.length : Int) - 1) * (xs.length : Int) * (xs.length : Int) : Int) : Rat) := by
        push_cast
        linear_combination h'
      exact_mod_cast h2
  unfold sampleVar
  rw [if_neg hlen, div_lt_one hpos, ← mul_lt_mul_right hnn, ← hSA]
  exact hcast.symm

/-- Bridge: the rational population-variance comparison named by the
claim equals a scaled integer comparison. -/
theorem popVar_lt_one_iff (xs : List Int) (h : 1 ≤ xs.length) :
    popVar xs < 1 ↔
      sqDevScaled xs < (xs.length : Int) * (xs.length : Int) * (xs.length : Int) := by
  have hlen : xs.length ≠ 0 := by omega
  have hn : (xs.length : Int) ≠ 0 := by exact_mod_cast hlen
  have hkey := foldr_sqdev_scaled xs (xs.length : Int) (intSum xs) hn
  push_cast at hkey
  have hSA : ((sqDevScaled xs : Int) : Rat) =
      (xs.foldr
          (fun (a : Int) (b : Rat) =>
            ((a : Rat) - (intSum xs : Rat) / (xs.length : Rat)) *
                ((a : Rat) - (intSum xs : Rat) / (xs.length : Rat)) + b)
          0) * ((xs.length : Rat) * (xs.length : Rat)) := by
    unfold sqDevScaled
    exact hkey.symm
  have hpos : (0 : Rat) < (xs.length : Rat) := by
    have : 0 < xs.length := by omega
    exact_mod_cast this
  have hnn : (0 : Rat) < (xs.length : Rat) * (xs.length : Rat) := by positivity
  have hcast : (sqDevScaled xs <
      (xs.length : Int) * (xs.length : Int) * (xs.length : Int)) ↔
      (((sqDevScaled xs : Int) : Rat) <
        (xs.length : Rat) * ((xs.length : Rat) * (xs.length : Rat))) := by
    constructor
    · intro h'
      have h2 : ((sqDevScaled xs : Int) : Rat) <
          (((xs.length : Int) * (xs.length : Int) * (xs.length : Int) : Int) : Rat) := by
        exact_mod_cast h'
      push_cast at h2
      linear_combination h2
    · intro h'
      have h2 : ((sqDevScaled xs : Int) : Rat) <
          (((xs.length : Int) * (xs.length : Int) * (xs.length : Int) : Int) : Rat) := by
        push_cast
        linear_combination h'
      exact_mod_cast h2
  unfold popVar
  rw [if_neg hlen, div_lt_one hpos, ← mul_lt_mul_right hnn, ← hSA]
  exact hcast.symm

/-- Claim C4, counterexample: a user with 11 events at times
0,0,0,0,0,2,4,6,8,10,12 has inter-event deltas 0,0,0,0,2,2,2,2,2,2 whose
population variance is 24/25 < 1 (population std ≈ 0.98, so the claim
says the user is flagged), yet the code's `std()` uses `ddof = 1`
(sample variance 16/15 > 1, sample std ≈ 1.03) and does not flag the
user. -/
theorem c4_population_std_counterexample :
    ([(0 : Int), 0, 0, 0, 0, 2, 4, 6, 8, 10, 12].length > 10) ∧
      popVar (deltas [(0 : Int), 0, 0, 0, 0, 2, 4, 6, 8, 10, 12]) < 1 ∧
      lowStdFlag [(0 : Int), 0, 0, 0, 0, 2, 4, 6, 8, 10, 12] = false := by
  refine ⟨by decide, ?_, by decide⟩
  rw [popVar_lt_one_iff _ (by decide)]
  decide

/-- Claim C4 (amended): for a user with more than 10 events, the
timing-regularity classifier flags the user exactly when the sample
standard deviation (polars default `ddof = 1`, dividing by the number of
deltas minus 1 — not the population standard deviation) of the
consecutive inter-event deltas is strictly below 1.0 seconds,
equivalently when the sample variance is below 1; the null first slot of
the diff column is ignored by the aggregation, leaving `n - 1` deltas. -/
theorem c4_low_std_characterization (ts : List Int) (h : 10 < ts.length) :
    lowStdFlag ts = true ↔ sampleVar (deltas ts) < 1 := by
  have hd : 2 ≤ (deltas ts).length := by
    rw [deltas_length]; omega
  unfold lowStdFlag
  rw [shiftDiffCol_filterMap]
  rw [if_neg (by omega : ¬((deltas ts).length ≤ 1))]
  rw [sampleVar_lt_one_iff _ hd]
  simp

theorem c4_low_std_characterization_witness :
    (10 < [(0 : Int), 1, 2, 3, 4, 5, 6, 7, 8, 9, 10, 11].length) ∧
      (lowStdFlag [(0 : Int), 1, 2, 3, 4, 5, 6, 7, 8, 9, 10, 11] = true ↔
        sampleVar (deltas [(0 : Int), 1, 2, 3, 4, 5, 6, 7, 8, 9, 10, 11]) < 1) :=
  ⟨by decide,
    c4_low_std_characterization [(0 : Int), 1, 2, 3, 4, 5, 6, 7, 8, 9, 10, 11]
      (by decide)⟩

/-! ## Linear-movement classifier (botdetector.py / linear_visualizations.py) -/

/-- The `(dx, dy)` column of one user's time-sorted rows: null in the
first row (its `shift(1)` is null), consecutive coordinate differences
elsewhere. -/
def dxdyCol (evs : List Event) : List (Option (Int × Int)) :=
  match evs with
  | [] => []
  | e :: rest =>
    none ::
      (List.zipWith
          (fun (a b : Event) => ((a.x : Int) - (b.x : Int), (a.y : Int) - (b.y : Int)))
          rest (e :: rest)).map some

/-- `is_linear` of a `(dx, dy)` pair:
`(|dx| == 1 and dy == 0) or (dx == 0 and |dy| == 1)`. -/
def isLinearMove (d : Int × Int) : Bool :=
  (d.1.natAbs == 1 && d.2 == 0) || (d.1 == 0 && d.2.natAbs == 1)

/-- `linearity_score`: polars `mean` of the 0/1-cast `is_linear` column.
The null first row is skipped by the mean, so the score is the number of
linear moves over the number of moves; it is null for a user with fewer
than two rows. -/
def linearityScore (evs : List Event) : Option Rat :=
  let vs := (dxdyCol evs).filterMap id
  if vs.length = 0 then none
  else some ((vs.countP isLinearMove : Rat) / (vs.length : Rat))

/-- The `linearity_score > 0.95` filter; a null score never passes.
With `n > 0` moves and `c` linear ones, `c / n > 95/100` holds exactly
when `19 * n < 20 * c`, the integer form used to keep the definition
kernel-evaluable. -/
def linearFlag (evs : List Event) : Bool :=
  let vs := (dxdyCol evs).filterMap id
  if vs.length = 0 then false
  else decide (19 * vs.length < 20 * vs.countP isLinearMove)

/-- The linearity score as the claim words it: linear moves divided by
the user's total event count (the undefined first row counted in the
denominator as non-linear).  Stated from the claim for comparison with
the code's score. -/
def specLinearityScore (evs : List Event) : Rat :=
  (((dxdyCol evs).filterMap id).countP isLinearMove : Rat) / (evs.length : Rat)

theorem dxdyCol_filterMap_length (evs : List Event) :
    ((dxdyCol evs).filterMap id).length = evs.length - 1 := by
  cases evs with
  | nil => rfl
  | cons e rest =>
    simp [dxdyCol, List.filterMap_cons, List.length_zipWith]

/-- Twelve events of one user walking right along a straight line one
pixel per second: every one of the 11 moves is linear. -/
def c3LineEvents : List Event :=
  [⟨1, 0, 0, 0, "black"⟩, ⟨1, 1, 1, 0, "black"⟩, ⟨1, 2, 2, 0, "black"⟩,
    ⟨1, 3, 3, 0, "black"⟩, ⟨1, 4, 4, 0, "black"⟩, ⟨1, 5, 5, 0, "black"⟩,
    ⟨1, 6, 6, 0, "black"⟩, ⟨1, 7, 7, 0, "black"⟩, ⟨1, 8, 8, 0, "black"⟩,
    ⟨1, 9, 9, 0, "black"⟩, ⟨1, 10, 10, 0, "black"⟩, ⟨1, 11, 11, 0, "black"⟩]

/-- Claim C3, counterexample: a user with 12 events in a straight line
(11 of 11 moves linear) is flagged by the code (score 11/11 = 1 > 0.95),
but the claim's score — linear moves over total events including the
first — is 11/12 ≈ 0.917, not above 0.95, so by the claim this user
would not be flagged.  The mean ignores the null first row instead of
counting it as non-linear. -/
theorem c3_linearity_denominator_counterexample :
    (10 < c3LineEvents.length) ∧ linearFlag c3LineEvents = true ∧
      specLinearityScore c3LineEvents ≤ 95 / 100 := by
  refine ⟨by decide, by decide, ?_⟩
  have hc : ((dxdyCol c3LineEvents).filterMap id).countP isLinearMove = 11 := by
    decide
  have hl : c3LineEvents.length = 12 := by decide
  unfold specLinearityScore
  rw [hc, hl]
  norm_num

/-- Claim C3 (amended): for a user with more than 10 events, the score
compared against 0.95 is the number of linear moves divided by the
number of moves (the event count minus one): the first row's null delta
is skipped by the mean, not counted as a non-linear event. -/
theorem c3_linearity_characterization (evs : List Event)
    (h : 10 < evs.length) :
    linearityScore evs =
        some ((((dxdyCol evs).filterMap id).countP isLinearMove : Rat) /
          ((evs.length - 1 : Nat) : Rat)) ∧
      (linearFlag evs = true ↔
        (95 : Rat) / 100 <
          (((dxdyCol evs).filterMap id).countP isLinearMove : Rat) /
            ((evs.length - 1 : Nat) : Rat)) := by
  have hlen : ((dxdyCol evs).filterMap id).length = evs.length - 1 :=
    dxdyCol_filterMap_length evs
  have hne : ¬(((dxdyCol evs).filterMap id).length = 0) := by
    rw [hlen]; omega
  have hpos : (0 : Rat) < (((dxdyCol evs).filterMap id).length : Rat) := by
    have : 0 < ((dxdyCol evs).filterMap id).length := Nat.pos_of_ne_zero hne
    exact_mod_cast this
  constructor
  · unfold linearityScore
    rw [if_neg hne, hlen]
  · unfold linearFlag
    rw [if_neg hne]
    have hiff : ((95 : Rat) / 100 <
        (((dxdyCol evs).filterMap id).countP isLinearMove : Rat) /
          (((dxdyCol evs).filterMap id).length : Rat)) ↔
        (19 * ((dxdyCol evs).filterMap id).length <
          20 * ((dxdyCol evs).filterMap id).countP isLinearMove) := by
      rw [div_lt_div_iff₀ (by norm_num) hpos]
      constructor
      · intro h'
        have h2 : (95 : Rat) * ((dxdyCol evs).filterMap id).length <
            100 * ((dxdyCol evs).filterMap id).countP isLinearMove := by
          linear_combination h'
        have h3 : 95 * ((dxdyCol evs).filterMap id).length <
            100 * ((dxdyCol evs).filterMap id).countP isLinearMove := by
          exact_mod_cast h2
        omega
      · intro h'
        have h3 : 95 * ((dxdyCol evs).filterMap id).length <
            100 * ((dxdyCol evs).filterMap id).countP isLinearMove := by omega
        have h2 : (95 : Rat) * ((dxdyCol evs).filterMap id).length <
            100 * ((dxdyCol evs).filterMap id).countP isLinearMove := by
          exact_mod_cast h3
        linear_combination h2
    rw [hlen] at hiff
    simp only [decide_eq_true_eq]
    rw [hlen]
    exact hiff.symm

theorem c3_linearity_characterization_witness :
    (10 < c3LineEvents.length) ∧
      linearityScore c3LineEvents =
        some ((((dxdyCol c3LineEvents).filterMap id).countP isLinearMove : Rat) /
          ((c3LineEvents.length - 1 : Nat) : Rat)) :=
  ⟨by decide, (c3_linearity_characterization c3LineEvents (by decide)).1⟩

/-! ## Uptime-streak classifier (botdetector.py)

The code derives `hour_id = (seconds_since_start / 3600).cast(pl.Int32)`
(float division then an integer cast, which truncates toward zero — for
`Int32`-range inputs the float quotient is exact enough that the cast
equals integer truncation), takes the unique sorted hour ids per user,
computes `streak_id = hour_id - cum_count` and flags any group of equal
streak ids of size ≥ 24.  The `cum_count` rank differs from a 0-based
index only by a constant offset per user, which renames every streak id
uniformly and changes no group. -/

/-- `hour_id` of an event: `t / 3600` truncated toward zero. -/
def hourBucket (t : Int) : Int := Int.tdiv t 3600

/-- Duplicate removal on an ascending column (the per-user effect of
`unique()` followed by `sort`). -/
def dedupSorted : List Int → List Int
  | [] => []
  | [a] => [a]
  | a :: b :: rest =>
    if a = b then dedupSorted (b :: rest) else a :: dedupSorted (b :: rest)

/-- One user's deduplicated ascending hour buckets. -/
def hourBuckets (ts : List Int) : List Int :=
  dedupSorted (sortTimes (ts.map hourBucket))

/-- `streak_id = hour_id - rank` over the sorted unique buckets. -/
def streakIds (bs : List Int) : List Int :=
  List.zipWith (fun b (i : Nat) => b - (i : Int)) bs (List.range bs.length)

/-- Occurrences of one streak id (the size of its group). -/
def streakCount (bs : List Int) (v : Int) : Nat := (streakIds bs).count v

/-- Uptime-streak classifier: some streak group has size ≥ 24. -/
def noSleepFlag (ts : List Int) : Bool :=
  (streakIds (hourBuckets ts)).any
    (fun v => 24 ≤ streakCount (hourBuckets ts) v)

/-- The list contains `k` consecutive integers starting at one of its
members. -/
def hasRunB (k : Nat) (bs : List Int) : Bool :=
  bs.any (fun a => (List.range k).all (fun j => bs.contains (a + (j : Int))))

/-- The claim's hour bucket: floor division `t // 3600` (rounds toward
negative infinity).  Stated from the claim for comparison with the
code's truncating cast. -/
def specHourBucketFloor (t : Int) : Int := Int.fdiv t 3600

/-- The deduplicated ascending hour buckets under the claim's floor
semantics. -/
def specHourBuckets (ts : List Int) : List Int :=
  dedupSorted (sortTimes (ts.map specHourBucketFloor))

theorem streakIds_cons (b : Int) (rest : List Int) :
    streakIds (b :: rest) = b :: (streakIds rest).map (fun s => s - 1) := by
  unfold streakIds
  rw [List.length_cons, List.range_succ_eq_map, List.zipWith_cons_cons,
    List.zipWith_map_right, List.map_zipWith]
  congr 1
  · simp
  · congr 1
    funext x j
    have : ((Nat.succ j : Nat) : Int) = (j : Int) + 1 := by push_cast; ring
    rw [this]
    ring

theorem streakCount_cons (b : Int) (rest : List Int) (v : Int) :
    streakCount (b :: rest) v =
      (if b = v then 1 else 0) + streakCount rest (v + 1) := by
  unfold streakCount
  rw [streakIds_cons, List.count_cons]
  have hinj : Function.Injective (fun s : Int => s - 1) := by
    intro a b hab
    simpa using hab
  have hmap := List.count_map_of_injective (streakIds rest)
    (fun s : Int => s - 1) hinj (v + 1)
  simp only [add_sub_cancel_right] at hmap
  rw [hmap]
  by_cases hbv : b = v
  · simp [hbv, Nat.add_comm]
  · simp [hbv, fun h : v = b => hbv h.symm]

theorem streakCount_eq_zero (bs : List Int) :
    ∀ w : Int, bs.Pairwise (· < ·) → (∀ b ∈ bs, w < b) →
      streakCount bs w = 0 := by
  induction bs with
  | nil => intro w _ _; rfl
  | cons b rest ih =>
    intro w hp hall
    rw [streakCount_cons]
    have hb : w < b := hall b (List.mem_cons_self b rest)
    have hbw : ¬(b = w) := by omega
    rw [if_neg hbw, Nat.zero_add]
    rcases List.pairwise_cons.mp hp with ⟨hhead, htail⟩
    refine ih (w + 1) htail ?_
    intro c hc
    have h1 : b < c := hhead c hc
    omega

theorem streakCount_head_run (rest : List Int) :
    ∀ (v : Int) (k : Nat), ((v :: rest).Pairwise (· < ·)) →
      k ≤ streakCount (v :: rest) v →
      ∀ j : Nat, j < k → (v + (j : Int)) ∈ (v :: rest) := by
  induction rest with
  | nil =>
    intro v k _ hk j hj
    have hcount : streakCount [v] v = 1 := by
      rw [streakCount_cons]
      simp [streakCount, streakIds]
    rw [hcount] at hk
    have : j = 0 := by omega
    subst this
    simp
  | cons c rest' ih =>
    intro v k hp hk j hj
    cases j with
    | zero => simp
    | succ j' =>
      rw [streakCount_cons, if_pos rfl] at hk
      have hcpos : 1 ≤ streakCount (c :: rest') (v + 1) := by omega
      rcases List.pairwise_cons.mp hp with ⟨hhead, htail⟩
      have hvc : v < c := hhead c (List.mem_cons_self c rest')
      have hceq : c = v + 1 := by
        by_contra hne
        have hgt : v + 1 < c := by omega
        have hz : streakCount (c :: rest') (v + 1) = 0 := by
          refine streakCount_eq_zero (c :: rest') (v + 1) htail ?_
          intro b hb
          rcases List.mem_cons.mp hb with hb1 | hb2
          · omega
          · have := (List.pairwise_cons.mp htail).1 b hb2
            omega
        omega
      subst hceq
      have hrun := ih (v + 1) (k - 1) htail (by omega) j' (by omega)
      have hcast : v + ((j' + 1 : Nat) : Int) = (v + 1) + (j' : Int) := by
        push_cast; ring
      rw [hcast]
      exact List.mem_cons_of_mem v hrun

theorem streakCount_to_run (bs : List Int) :
    ∀ (v : Int) (k : Nat), bs.Pairwise (· < ·) → 1 ≤ k →
      k ≤ streakCount bs v →
      ∃ a : Int, ∀ j : Nat, j < k → (a + (j : Int)) ∈ bs := by
  induction bs with
  | nil =>
    intro v k _ hk hcount
    exfalso
    have : streakCount [] v = 0 := rfl
    omega
  | cons b rest ih =>
    intro v k hp hk hcount
    by_cases hbv : b = v
    · subst hbv
      exact ⟨b, streakCount_head_run rest b k hp hcount⟩
    · rw [streakCount_cons, if_neg hbv, Nat.zero_add] at hcount
      rcases List.pairwise_cons.mp hp with ⟨_, htail⟩
      obtain ⟨a, ha⟩ := ih (v + 1) k htail hk hcount
      exact ⟨a, fun j hj => List.mem_cons_of_mem b (ha j hj)⟩

theorem run_to_streakCount_head (rest : List Int) :
    ∀ (a : Int) (k : Nat), ((a :: rest).Pairwise (· < ·)) →
      (∀ j : Nat, j < k → (a + (j : Int)) ∈ (a :: rest)) →
      k ≤ streakCount (a :: rest) a := by
  induction rest with
  | nil =>
    intro a k _ hrun
    rw [streakCount_cons, if_pos rfl]
    by_contra hlt
    have hk2 : 2 ≤ k := by
      have : streakCount ([] : List Int) (a + 1) = 0 := rfl
      omega
    have h1 := hrun 1 (by omega)
    simp at h1
  | cons c rest' ih =>
    intro a k hp hrun
    rw [streakCount_cons, if_pos rfl]
    rcases Nat.lt_or_ge k 2 with hk | hk
    · omega
    · have h1 := hrun 1 (by omega)
      have h1' : a + (1 : Int) ∈ c :: rest' := by
        rcases List.mem_cons.mp h1 with hh | hh
        · exfalso; omega
        · simpa using hh
      rcases List.pairwise_cons.mp hp with ⟨hhead, htail⟩
      have hac : a < c := hhead c (List.mem_cons_self c rest')
      have hceq : c = a + 1 := by
        rcases List.mem_cons.mp h1' with hh | hh
        · omega
        · have := (List.pairwise_cons.mp htail).1 _ hh
          omega
      subst hceq
      have hrest : ∀ j : Nat, j < k - 1 → ((a + 1) + (j : Int)) ∈ (a + 1) :: rest' := by
        intro j hjk
        have hj := hrun (j + 1) (by omega)
        have hcast : a + ((j + 1 : Nat) : Int) = (a + 1) + (j : Int) := by
          push_cast; ring
        rw [hcast] at hj
        rcases List.mem_cons.mp hj with hh | hh
        · exfalso; omega
        · exact hh
      have := ih (a + 1) (k - 1) htail hrest
      omega

theorem run_to_streakCount (bs : List Int) :
    ∀ (a : Int) (k : Nat), bs.Pairwise (· < ·) → 1 ≤ k →
      (∀ j : Nat, j < k → (a + (j : Int)) ∈ bs) →
      ∃ v : Int, k ≤ streakCount bs v := by
  induction bs with
  | nil =>
    intro a k _ hk hrun
    exfalso
    have := hrun 0 (by omega)
    simp at this
  | cons b rest ih =>
    intro a k hp hk hrun
    by_cases hab : a = b
    · subst hab
      exact ⟨a, run_to_streakCount_head rest a k hp hrun⟩
    · have ha : a ∈ b :: rest := by
        have := hrun 0 (by omega)
        simpa using this
      have ha' : a ∈ rest := by
        rcases List.mem_cons.mp ha with hh | hh
        · exact absurd hh hab
        · exact hh
      rcases List.pairwise_cons.mp hp with ⟨hhead, htail⟩
      have hba : b < a := hhead a ha'
      have hrest : ∀ j : Nat, j < k → (a + (j : Int)) ∈ rest := by
        intro j hj
        have hj' := hrun j hj
        rcases List.mem_cons.mp hj' with hh | hh
        · exfalso
          have : (0 : Int) ≤ (j : Int) := by positivity
          omega
        · exact hh
      obtain ⟨v, hv⟩ := ih a k htail hk hrest
      refine ⟨v - 1, ?_⟩
      rw [streakCount_cons, sub_add_cancel]
      omega

theorem sortTimes_pairwise (ts : List Int) :
    (sortTimes ts).Pairwise (· ≤ ·) :=
  List.sorted_insertionSort (· ≤ ·) ts

theorem dedupSorted_subset (l : List Int) : ∀ x ∈ dedupSorted l, x ∈ l := by
  induction l with
  | nil => simp [dedupSorted]
  | cons a rest ih =>
    cases rest with
    | nil => simp [dedupSorted]
    | cons b rest' =>
      intro x hx
      by_cases hab : a = b
      · rw [show dedupSorted (a :: b :: rest') = dedupSorted (b :: rest') by
          simp [dedupSorted, hab]] at hx
        exact List.mem_cons_of_mem a (ih x hx)
      · rw [show dedupSorted (a :: b :: rest') = a :: dedupSorted (b :: rest') by
          simp [dedupSorted, hab]] at hx
        rcases List.mem_cons.mp hx with hh | hh
        · exact hh ▸ List.mem_cons_self a (b :: rest')
        · exact List.mem_cons_of_mem a (ih x hh)

theorem dedupSorted_pairwise (l : List Int) :
    l.Pairwise (· ≤ ·) → (dedupSorted l).Pairwise (· < ·) := by
  induction l with
  | nil => intro _; simp [dedupSorted]
  | cons a rest ih =>
    intro hp
    cases rest with
    | nil => simp [dedupSorted]
    | cons b rest' =>
      rcases List.pairwise_cons.mp hp with ⟨hhead, htail⟩
      by_cases hab : a = b
      · rw [show dedupSorted (a :: b :: rest') = dedupSorted (b :: rest') by
          simp [dedupSorted, hab]]
        exact ih htail
      · rw [show dedupSorted (a :: b :: rest') = a :: dedupSorted (b :: rest') by
          simp [dedupSorted, hab]]
        refine List.pairwise_cons.mpr ⟨?_, ih htail⟩
        intro x hx
        have hxmem : x ∈ b :: rest' := dedupSorted_subset (b :: rest') x hx
        have hax : a ≤ b := hhead b (List.mem_cons_self b rest')
        rcases List.mem_cons.mp hxmem with hh | hh
        · omega
        · have hbx : b ≤ x := (List.pairwise_cons.mp htail).1 x hh
          omega

theorem hourBuckets_pairwise (ts : List Int) :
    (hourBuckets ts).Pairwise (· < ·) :=
  dedupSorted_pairwise _ (sortTimes_pairwise (ts.map hourBucket))

/-- Twenty-four events, one at t = -3599 (truncating hour bucket 0,
floor hour bucket -1) and one in each of hours 1..23. -/
def c6Times : List Int :=
  [-3599, 3600, 7200, 10800, 14400, 18000, 21600, 25200, 28800, 32400,
    36000, 39600, 43200, 46800, 50400, 54000, 57600, 61200, 64800, 68400,
    72000, 75600, 79200, 82800]

/-- Claim C6, counterexample: the code's hour bucket is the truncating
cast `(t / 3600).cast(Int32)`, not floor division.  For the 24 events of
`c6Times` (one at t = -3599, one in each of hours 1..23) the code's
buckets are 0,1,...,23 — a 24-hour run, so the user is flagged — while
the claim's floor buckets are -1,1,2,...,23, whose longest consecutive
run is 23, so by the claim the user must not be flagged. -/
theorem c6_floor_bucket_counterexample :
    (10 < c6Times.length) ∧
      hourBucket (-3599) = 0 ∧ Int.fdiv (-3599) 3600 = -1 ∧
      noSleepFlag c6Times = true ∧
      hasRunB 24 (specHourBuckets c6Times) = false := by
  refine ⟨by decide, by decide, by decide, by decide, by decide⟩

/-- Claim C6 (amended): the hour bucket is `t / 3600` truncated toward
zero (the integer cast of a float division), which agrees with floor
division `t // 3600` for non-negative timestamps but not for negative
ones; and a user is flagged exactly when the sorted deduplicated
(truncating) hour buckets contain a run of at least 24 consecutive
integers. -/
theorem c6_uptime_streak_characterization :
    (∀ t : Int, 0 ≤ t → hourBucket t = Int.fdiv t 3600) ∧
      (∀ ts : List Int,
        noSleepFlag ts = true ↔ hasRunB 24 (hourBuckets ts) = true) := by
  constructor
  · intro t ht
    unfold hourBucket
    rw [Int.tdiv_eq_ediv ht (by omega), Int.fdiv_eq_ediv t (by omega)]
  · intro ts
    have hp : (hourBuckets ts).Pairwise (· < ·) := hourBuckets_pairwise ts
    unfold noSleepFlag hasRunB
    simp only [List.any_eq_true, List.all_eq_true, List.mem_range,
      decide_eq_true_eq]
    constructor
    · rintro ⟨v, _, hcount⟩
      obtain ⟨a, ha⟩ :=
        streakCount_to_run (hourBuckets ts) v 24 hp (by omega) hcount
      have hamem : a ∈ hourBuckets ts := by
        have := ha 0 (by omega)
        simpa using this
      refine ⟨a, hamem, ?_⟩
      intro j hj
      have := ha j hj
      simpa [List.contains] using this
    · rintro ⟨a, hamem, hall⟩
      have hrun : ∀ j : Nat, j < 24 → (a + (j : Int)) ∈ hourBuckets ts := by
        intro j hj
        have := hall j hj
        simpa [List.contains] using this
      obtain ⟨v, hv⟩ :=
        run_to_streakCount (hourBuckets ts) a 24 hp (by omega) hrun
      refine ⟨v, ?_, hv⟩
      have hpos : 0 < (streakIds (hourBuckets ts)).count v := by
        have : (0 : Nat) < 24 := by omega
        unfold streakCount at hv
        omega
      exact List.count_pos_iff.mp hpos

theorem c6_uptime_streak_witness :
    (0 ≤ (7200 : Int)) ∧ hourBucket 7200 = Int.fdiv 7200 3600 :=
  ⟨by decide, c6_uptime_streak_characterization.1 7200 (by decide)⟩

/-! ## Windowed session analysis (PolarsPlace.py)

The window filter is
`(seconds_since_start >= start_sec) & (seconds_since_start < end_sec)`;
the session, color-ranking and percentile analyses all aggregate the
filtered frame `df_window`. -/

/-- The window predicate `start_sec <= t < end_sec`. -/
def inWindow (s e : Int) (ev : Event) : Bool :=
  decide (s ≤ ev.t) && decide (ev.t < e)

/-- `df_window`: the events passing the window filter. -/
def windowEvents (s e : Int) (es : List Event) : List Event :=
  es.filter (inWindow s e)

/-- The distinct users of a frame. -/
def usersOf (es : List Event) : List Nat := (es.map (fun ev => ev.user)).dedup

/-- Smallest element of a time column (`min`), 0 on an empty column. -/
def listMin : List Int → Int
  | [] => 0
  | x :: xs => xs.foldl min x

/-- Largest element of a time column (`max`), 0 on an empty column. -/
def listMax : List Int → Int
  | [] => 0
  | x :: xs => xs.foldl max x

/-- The rows of session `k` of a sorted per-user time column: the rows
the `group_by(["user_id_int", "session_id"])` puts in that group. -/
def sessionRows (ts : List Int) (k : Nat) : List Int :=
  ((ts.zip (sessionIds ts)).filter (fun p => p.2 == k)).map (fun p => p.1)

/-- Per-session aggregation `(dur, p_count)`:
`max(t) - min(t)` and the row count of each session group. -/
def sessionStats (ts : List Int) : List (Int × Nat) :=
  ((sessionIds ts).dedup).map
    (fun k =>
      (listMax (sessionRows ts k) - listMin (sessionRows ts k),
        (sessionRows ts k).length))

/-- The `dur` values of the sessions surviving the `p_count > 1` filter,
across all users of the frame. -/
def survivingDurs (es : List Event) : List Int :=
  (usersOf es).flatMap
    (fun u =>
      ((sessionStats (groupTimes (es.map (fun ev => (ev.user, ev.t))) u)).filter
          (fun st => 1 < st.2)).map (fun st => st.1))

/-- `session_data`: the result of `select(col("dur").mean())`.  A select
of an aggregation always materializes exactly one row; the mean of an
empty column is null.  So this frame has height 1 even when no session
survives, holding null in that case. -/
def sessionData (es : List Event) : List (Option Rat) :=
  [if (survivingDurs es).length = 0 then none
    else
      some ((intSum (survivingDurs es) : Rat) / ((survivingDurs es).length : Rat))]

/-- `avg_session = session_data.item() if session_data.height > 0 else 0`.
The guard compares the height of the one-row frame, which is always 1,
so the `else 0` branch is dead and `item()` (the row's possibly-null
value) is always taken. -/
def avgSession (es : List Event) : Option Rat :=
  if 0 < (sessionData es).length then (sessionData es).getD 0 none
  else some 0

/-- The report step `f-string {avg_session:.2f}`: formatting a number
succeeds, formatting Python `None` raises `TypeError` (caught by the
surrounding `except`, which aborts the analysis with an error message
instead of printing results). -/
def avgSessionReport (es : List Event) : Except String Rat :=
  match avgSession es with
  | some v => Except.ok v
  | none =>
    Except.error "TypeError: unsupported format string passed to NoneType"

/-- A window with events but no surviving session: one user, two events
901 s apart — two singleton sessions, both dropped by `p_count > 1`. -/
def c5Events : List Event :=
  [⟨1, 0, 5, 5, "red"⟩, ⟨1, 901, 6, 5, "red"⟩]

/-- Claim C5: the claim (and the spec, and the code's own
`if session_data.height > 0 else 0` guard) require mean session duration
0 when events exist but no session survives the `p_count > 1` filter.
The code instead fails: `select(mean)` yields a one-row frame holding
null, the height guard (always 1) passes, `item()` returns `None`, and
formatting `None` with `:.2f` raises a `TypeError` swallowed by the
catch-all handler.  This theorem evaluates the embedded pipeline at the
failing input. -/
theorem c5_no_surviving_session_error :
    c5Events ≠ [] ∧ survivingDurs c5Events = [] ∧
      (sessionData c5Events).length = 1 ∧
      avgSessionReport c5Events =
        Except.error "TypeError: unsupported format string passed to NoneType" := by
  refine ⟨by decide, by decide, by decide, rfl⟩

/-- Claim C5, general form: whenever no session survives, the report is
the formatting error, never `ok 0`. -/
theorem c5_no_surviving_session_error_general (es : List Event)
    (h : survivingDurs es = []) :
    avgSessionReport es =
      Except.error "TypeError: unsupported format string passed to NoneType" := by
  unfold avgSessionReport avgSession sessionData
  rw [h]
  simp

theorem c5_no_surviving_session_error_general_witness :
    survivingDurs c5Events = [] ∧
      avgSessionReport c5Events =
        Except.error "TypeError: unsupported format string passed to NoneType" :=
  ⟨by decide, c5_no_surviving_session_error_general c5Events (by decide)⟩

/-! ## Claim C10: the window is half-open -/

/-- Distinct-user count per color (`group_by(color_name)`,
`n_unique(user_id_int)`), before the ranking sort. -/
def colorUserCounts (es : List Event) : List (String × Nat) :=
  ((es.map (fun ev => ev.color)).dedup).map
    (fun c =>
      (c, ((es.filter (fun ev => ev.color == c)).map (fun ev => ev.user)).dedup.length))

/-- Event count per user (`group_by(user_id_int).agg(len)`), the input
of the percentile analysis. -/
def pixelCounts (es : List Event) : List (Nat × Nat) :=
  (usersOf es).map
    (fun u => (u, (es.filter (fun ev => ev.user == u)).length))

/-- Color ranking input of the window. -/
def windowedColorUserCounts (s e : Int) (es : List Event) : List (String × Nat) :=
  colorUserCounts (windowEvents s e es)

/-- Percentile input of the window. -/
def windowedPixelCounts (s e : Int) (es : List Event) : List (Nat × Nat) :=
  pixelCounts (windowEvents s e es)

/-- Surviving session durations of the window. -/
def windowedSurvivingDurs (s e : Int) (es : List Event) : List Int :=
  survivingDurs (windowEvents s e es)

/-- Claim C10: the window is half-open: an event is in `df_window`
exactly when `start_sec <= t < end_sec`; an event at exactly `start_sec`
is included, and appending an event at exactly `end_sec` changes neither
the window nor the color-ranking, session, or percentile inputs computed
from it. -/
theorem c10_half_open_window (s e : Int) (es : List Event) (ev : Event) :
    (ev ∈ windowEvents s e es ↔ (ev ∈ es ∧ s ≤ ev.t ∧ ev.t < e)) ∧
      (ev.t = s → s < e → ev ∈ es → ev ∈ windowEvents s e es) ∧
      (ev.t = e →
        windowEvents s e (es ++ [ev]) = windowEvents s e es ∧
          windowedColorUserCounts s e (es ++ [ev]) =
            windowedColorUserCounts s e es ∧
          windowedSurvivingDurs s e (es ++ [ev]) =
            windowedSurvivingDurs s e es ∧
          windowedPixelCounts s e (es ++ [ev]) =
            windowedPixelCounts s e es) := by
  have hchar : ev ∈ windowEvents s e es ↔ (ev ∈ es ∧ s ≤ ev.t ∧ ev.t < e) := by
    unfold windowEvents inWindow
    rw [List.mem_filter]
    simp [and_assoc]
  refine ⟨hchar, ?_, ?_⟩
  · intro ht hse hmem
    exact hchar.mpr ⟨hmem, by omega, by omega⟩
  · intro ht
    have hwin : windowEvents s e (es ++ [ev]) = windowEvents s e es := by
      unfold windowEvents
      rw [List.filter_append]
      have : List.filter (inWindow s e) [ev] = [] := by
        unfold inWindow
        simp [ht]
      rw [this, List.append_nil]
    refine ⟨hwin, ?_, ?_, ?_⟩
    · unfold windowedColorUserCounts; rw [hwin]
    · unfold windowedSurvivingDurs; rw [hwin]
    · unfold windowedPixelCounts; rw [hwin]

theorem c10_half_open_window_witness :
    ((⟨1, 0, 5, 5, "red"⟩ : Event) ∈
        windowEvents 0 901 [⟨1, 0, 5, 5, "red"⟩, ⟨1, 901, 6, 5, "red"⟩]) ∧
      windowEvents 0 901
          ([⟨1, 0, 5, 5, "red"⟩] ++ [⟨1, 901, 6, 5, "red"⟩]) =
        windowEvents 0 901 [⟨1, 0, 5, 5, "red"⟩] :=
  ⟨(c10_half_open_window 0 901 [⟨1, 0, 5, 5, "red"⟩, ⟨1, 901, 6, 5, "red"⟩]
        ⟨1, 0, 5, 5, "red"⟩).2.1 (by decide) (by decide) (by decide),
    ((c10_half_open_window 0 901 [⟨1, 0, 5, 5, "red"⟩]
        ⟨1, 901, 6, 5, "red"⟩).2.2 (by decide)).1⟩

/-! ## Hot-zone builder (botnet_detector.py, build_dynamic_zones)

The heatmap groups events by `(x, y)` and counts rows; the threshold is
`quantile(0.97)` of the per-cell counts (polars default interpolation
"nearest": the sorted value at index `round(q * (n - 1))`, computed here
in exact integer arithmetic as `(2*97*(n-1) + 100) / 200`); cells with
`pixel_count > threshold` and `x < 2000 and y < 2000` are hot;
`scipy.ndimage.label` with `generate_binary_structure(2, 2)` (the full
3x3 structure, 8-connectivity) assigns two hot cells the same `zone_id`
exactly when they are connected in the 8-adjacency graph restricted to
hot cells — embedded as reachability, computed by at most `|hot|` rounds
of neighborhood expansion. -/

/-- A canvas cell `(x, y)`. -/
structure Cell where
  x : Nat
  y : Nat
deriving DecidableEq, Repr

/-- Canvas bounds (RPLACE_WIDTH and RPLACE_HEIGHT). -/
def canvasWidth : Nat := 2000

/-- Canvas height bound. -/
def canvasHeight : Nat := 2000

/-- The distinct cells of the frame (the rows of the heatmap). -/
def cellsOf (es : List Event) : List Cell :=
  (es.map (fun ev => Cell.mk ev.x ev.y)).dedup

/-- `pixel_count` of one cell. -/
def cellCount (es : List Event) (c : Cell) : Nat :=
  es.countP (fun ev => ev.x == c.x && ev.y == c.y)

/-- The per-cell count distribution. -/
def heatmapCounts (es : List Event) : List Nat :=
  (cellsOf es).map (cellCount es)

/-- Index selected by `quantile(0.97)` with "nearest" interpolation on a
sorted column of length `n`: `round(0.97 * (n - 1))`, in exact integer
arithmetic. -/
def quantileNearestIdx (n : Nat) : Nat := (2 * 97 * (n - 1) + 100) / 200

/-- The 0.97-quantile of the per-cell counts (null on an empty frame). -/
def zoneThreshold (es : List Event) : Option Nat :=
  if heatmapCounts es = [] then none
  else
    some ((List.insertionSort (· ≤ ·) (heatmapCounts es)).getD
      (quantileNearestIdx (heatmapCounts es).length) 0)

/-- A heatmap row is hot when its count strictly exceeds the quantile
threshold and its coordinates pass
`(x < RPLACE_WIDTH) & (y < RPLACE_HEIGHT)`; a null threshold (empty
frame) marks nothing hot. -/
def isHot (es : List Event) (c : Cell) : Bool :=
  match zoneThreshold es with
  | none => false
  | some thr =>
    decide (c ∈ cellsOf es) && decide (thr < cellCount es c) &&
      decide (c.x < canvasWidth) && decide (c.y < canvasHeight)

/-- The hot cells of the frame. -/
def hotCells (es : List Event) : List Cell :=
  (cellsOf es).filter (fun c => isHot es c)

/-- 8-adjacency: distinct cells whose coordinates differ by at most one
in each axis (the `generate_binary_structure(2, 2)` neighborhood). -/
def adj8 (a b : Cell) : Bool :=
  !(a == b) && decide (((a.x : Int) - (b.x : Int)).natAbs ≤ 1) &&
    decide (((a.y : Int) - (b.y : Int)).natAbs ≤ 1)

/-- Diagonal adjacency: both coordinates differ by exactly one. -/
def diagAdj (a b : Cell) : Bool :=
  (((a.x : Int) - (b.x : Int)).natAbs == 1) &&
    (((a.y : Int) - (b.y : Int)).natAbs == 1)

/-- One round of component growth: adjoin every hot cell adjacent to the
current set. -/
def expandZone (hot : List Cell) (s : List Cell) : List Cell :=
  s ++ hot.filter (fun c => !(decide (c ∈ s)) && s.any (fun b => adj8 b c))

/-- Two cells carry the same `zone_id` when one is reachable from the
other inside the hot mask; `|hot|` expansion rounds reach everything
reachable. -/
def sameZone (es : List Event) (a b : Cell) : Bool :=
  decide (b ∈ (expandZone (hotCells es))^[(hotCells es).length] [a])

theorem mem_expandZone_self (hot s : List Cell) (x : Cell) (hx : x ∈ s) :
    x ∈ expandZone hot s := by
  unfold expandZone
  exact List.mem_append_left _ hx

theorem mem_expandZone_iterate (hot : List Cell) (k : Nat) :
    ∀ (s : List Cell) (x : Cell), x ∈ s → x ∈ (expandZone hot)^[k] s := by
  induction k with
  | zero => intro s x hx; simpa using hx
  | succ m ih =>
    intro s x hx
    rw [Function.iterate_succ_apply]
    exact ih (expandZone hot s) x (mem_expandZone_self hot s x hx)

theorem quantileNearestIdx_lt (n : Nat) (hn : 1 ≤ n) :
    quantileNearestIdx n < n := by
  unfold quantileNearestIdx
  rw [Nat.div_lt_iff_lt_mul (by omega : 0 < 200)]
  omega

theorem zoneThreshold_mem (es : List Event) (thr : Nat)
    (h : zoneThreshold es = some thr) : thr ∈ heatmapCounts es := by
  unfold zoneThreshold at h
  by_cases hne : heatmapCounts es = []
  · rw [if_pos hne] at h
    exact absurd h (by simp)
  · rw [if_neg hne] at h
    have hlen : 1 ≤ (heatmapCounts es).length := by
      cases hHM : heatmapCounts es with
      | nil => exact absurd hHM hne
      | cons a l => simp [hHM]
    have hperm := List.perm_insertionSort (· ≤ ·) (heatmapCounts es)
    have hslen : (List.insertionSort (· ≤ ·) (heatmapCounts es)).length =
        (heatmapCounts es).length := hperm.length_eq
    have hidx : quantileNearestIdx (heatmapCounts es).length <
        (List.insertionSort (· ≤ ·) (heatmapCounts es)).length := by
      rw [hslen]
      exact quantileNearestIdx_lt _ hlen
    have hval : (List.insertionSort (· ≤ ·) (heatmapCounts es)).getD
        (quantileNearestIdx (heatmapCounts es).length) 0 =
        (List.insertionSort (· ≤ ·) (heatmapCounts es)).get
          ⟨quantileNearestIdx (heatmapCounts es).length, hidx⟩ := by
      rw [List.getD_eq_getElem _ _ hidx]
      simp
    have hmem : (List.insertionSort (· ≤ ·) (heatmapCounts es)).get
        ⟨quantileNearestIdx (heatmapCounts es).length, hidx⟩ ∈
        List.insertionSort (· ≤ ·) (heatmapCounts es) := List.get_mem _ _ hidx
    have : thr ∈ List.insertionSort (· ≤ ·) (heatmapCounts es) := by
      have h' := h
      injection h' with hval'
      rw [← hval', hval]
      exact hmem
    exact hperm.mem_iff.mp this

theorem mem_cellsOf_iff (es : List Event) (c : Cell) :
    c ∈ cellsOf es ↔ ∃ ev ∈ es, ev.x = c.x ∧ ev.y = c.y := by
  unfold cellsOf
  rw [List.mem_dedup, List.mem_map]
  constructor
  · rintro ⟨ev, hev, hc⟩
    exact ⟨ev, hev, by rw [← hc], by rw [← hc]⟩
  · rintro ⟨ev, hev, hx, hy⟩
    exact ⟨ev, hev, by cases c; simp_all⟩

theorem cellCount_pos_iff (es : List Event) (c : Cell) :
    0 < cellCount es c ↔ ∃ ev ∈ es, ev.x = c.x ∧ ev.y = c.y := by
  unfold cellCount
  rw [List.countP_pos_iff]
  constructor
  · rintro ⟨ev, hev, hp⟩
    simp only [Bool.and_eq_true, beq_iff_eq] at hp
    exact ⟨ev, hev, hp.1, hp.2⟩
  · rintro ⟨ev, hev, hx, hy⟩
    exact ⟨ev, hev, by simp [hx, hy]⟩

theorem heatmapCounts_pos (es : List Event) (x : Nat)
    (hx : x ∈ heatmapCounts es) : 0 < x := by
  unfold heatmapCounts at hx
  rcases List.mem_map.mp hx with ⟨c, hc, hcount⟩
  have := (mem_cellsOf_iff es c).mp hc
  rw [← hcount]
  exact (cellCount_pos_iff es c).mpr this

/-- Claim C7: with the 0.97-quantile threshold defined (a nonempty
frame), a cell is hot exactly when its per-cell count strictly exceeds
the threshold and the cell is inside the canvas bounds; and two hot
cells that are diagonally adjacent share a zone (8-connectivity: one
expansion round already reaches a diagonal neighbor). -/
theorem c7_hot_zone_characterization (es : List Event) (thr : Nat)
    (hthr : zoneThreshold es = some thr) :
    (∀ c : Cell, isHot es c = true ↔
        (thr < cellCount es c ∧ c.x < canvasWidth ∧ c.y < canvasHeight)) ∧
      (∀ a b : Cell, isHot es a = true → isHot es b = true →
        diagAdj a b = true → sameZone es a b = true) := by
  constructor
  · intro c
    unfold isHot
    rw [hthr]
    simp only [Bool.and_eq_true, decide_eq_true_eq]
    constructor
    · rintro ⟨⟨⟨_, hcount⟩, hx⟩, hy⟩
      exact ⟨hcount, hx, hy⟩
    · rintro ⟨hcount, hx, hy⟩
      have hthrmem := zoneThreshold_mem es thr hthr
      have hthrpos : 0 < thr := heatmapCounts_pos es thr hthrmem
      have hcpos : 0 < cellCount es c := by omega
      have hmem : c ∈ cellsOf es :=
        (mem_cellsOf_iff es c).mpr ((cellCount_pos_iff es c).mp hcpos)
      exact ⟨⟨⟨hmem, hcount⟩, hx⟩, hy⟩
  · intro a b ha hb hdiag
    have hamem : a ∈ cellsOf es := by
      unfold isHot at ha
      rw [hthr] at ha
      simp only [Bool.and_eq_true, decide_eq_true_eq] at ha
      exact ha.1.1.1
    have hbmem : b ∈ cellsOf es := by
      unfold isHot at hb
      rw [hthr] at hb
      simp only [Bool.and_eq_true, decide_eq_true_eq] at hb
      exact hb.1.1.1
    have haHot : a ∈ hotCells es := by
      unfold hotCells
      exact List.mem_filter.mpr ⟨hamem, ha⟩
    have hbHot : b ∈ hotCells es := by
      unfold hotCells
      exact List.mem_filter.mpr ⟨hbmem, hb⟩
    have hne : ¬(a = b) := by
      intro hab
      subst hab
      unfold diagAdj at hdiag
      simp at hdiag
    have hadj : adj8 a b = true := by
      unfold adj8
      unfold diagAdj at hdiag
      simp only [Bool.and_eq_true, beq_iff_eq] at hdiag
      simp only [Bool.and_eq_true, Bool.not_eq_true', beq_eq_false_iff_ne,
        ne_eq, decide_eq_true_eq]
      exact ⟨⟨hne, by omega⟩, by omega⟩
    have hstep : b ∈ expandZone (hotCells es) [a] := by
      unfold expandZone
      refine List.mem_append_right _ ?_
      refine List.mem_filter.mpr ⟨hbHot, ?_⟩
      have hba : ¬(b = a) := fun h => hne h.symm
      have h1 : (!(decide (b ∈ [a]))) = true := by
        simp [hba]
      have h2 : ([a].any (fun x => adj8 x b)) = true := by
        simp [hadj]
      rw [Bool.and_eq_true]
      exact ⟨h1, h2⟩
    have hlen : 1 ≤ (hotCells es).length := by
      cases hHC : hotCells es with
      | nil => rw [hHC] at haHot; simp at haHot
      | cons c l => simp [hHC]
    unfold sameZone
    obtain ⟨m, hm⟩ : ∃ m, (hotCells es).length = m + 1 :=
      ⟨(hotCells es).length - 1, by omega⟩
    rw [hm, Function.iterate_succ_apply]
    have : b ∈ (expandZone (hotCells es))^[m] (expandZone (hotCells es) [a]) :=
      mem_expandZone_iterate (hotCells es) m _ b hstep
    exact decide_eq_true this

/-- Fifty one-event cells along the bottom edge plus two two-event cells
at (100,100) and (101,101): 52 heatmap rows, quantile index
`round(0.97 * 51) = 49`, sorted counts 1,...,1,2,2, threshold 1, so
exactly the two diagonal cells are hot. -/
def c7Events : List Event :=
  ((List.range 50).map (fun i => Event.mk i 0 i 0 "white")) ++
    [⟨100, 0, 100, 100, "black"⟩, ⟨101, 0, 100, 100, "black"⟩,
      ⟨102, 0, 101, 101, "black"⟩, ⟨103, 0, 101, 101, "black"⟩]

theorem c7_hot_zone_characterization_witness :
    zoneThreshold c7Events = some 1 ∧
      sameZone c7Events ⟨100, 100⟩ ⟨101, 101⟩ = true :=
  ⟨by decide,
    (c7_hot_zone_characterization c7Events 1 (by decide)).2
      ⟨100, 100⟩ ⟨101, 101⟩ (by decide) (by decide) (by decide)⟩

/-! ## Burst detector reporting (botnet_detector.py)

After the density filter, each surviving row is one attack-second
`(zone_id, seconds_since_start, zone_density, list of user_id_int)`.
Rows are sorted by `(zone_id, seconds_since_start)`, burst ids are
assigned per zone (the `burstIds` clusterer above), and
`unique_event_id = (zone_id, burst_id)`.  The global count is
`coordinated_events.select(user_id_int.explode().unique()).height`. -/

/-- One surviving `(zone_id, second)` row with its captured user list. -/
structure AttackSec where
  zone : Nat
  sec : Int
  users : List Nat
deriving DecidableEq, Repr

/-- The distinct zones of the attack frame. -/
def zonesOf (rows : List AttackSec) : List Nat :=
  (rows.map (fun r => r.zone)).dedup

/-- One zone's rows in ascending second order (the per-zone effect of
`sort(["zone_id", "seconds_since_start"])`). -/
def zoneRowsSorted (rows : List AttackSec) (z : Nat) : List AttackSec :=
  List.insertionSort (fun a b => a.sec ≤ b.sec)
    (rows.filter (fun r => r.zone == z))

/-- Every row tagged with its per-zone burst id. -/
def taggedRows (rows : List AttackSec) : List (AttackSec × Nat) :=
  (zonesOf rows).flatMap
    (fun z =>
      (zoneRowsSorted rows z).zip
        (burstIds ((zoneRowsSorted rows z).map (fun r => r.sec))))

/-- `unique_event_id` of a tagged row: the `(zone_id, burst_id)` pair. -/
def eventKey (p : AttackSec × Nat) : Nat × Nat := (p.1.zone, p.2)

/-- The global unique-suspicious-user count:
`user_id_int.explode().unique().height` over all coordinated-event
rows. -/
def globalUniqueBots (rows : List AttackSec) : Nat :=
  ((taggedRows rows).flatMap (fun p => p.1.users)).dedup.length

/-- The distinct `unique_event_id`s (the bursts). -/
def eventKeys (rows : List AttackSec) : List (Nat × Nat) :=
  ((taggedRows rows).map eventKey).dedup

/-- The participant users of one burst: all users of the attack-seconds
carrying that `unique_event_id`. -/
def burstParticipants (rows : List AttackSec) (k : Nat × Nat) : List Nat :=
  ((taggedRows rows).filter (fun p => eventKey p == k)).flatMap
    (fun p => p.1.users)

theorem mem_foldr_union {β : Type} [DecidableEq β] (g : Nat × Nat → List β)
    (ks : List (Nat × Nat)) (u : β) :
    (u ∈ ks.foldr (fun k acc => (g k).toFinset ∪ acc) ∅) ↔
      ∃ k ∈ ks, u ∈ g k := by
  induction ks with
  | nil => simp
  | cons k ks ih =>
    simp [Finset.mem_union, ih, List.mem_toFinset]

/-- Claim C8: the global unique-suspicious-user count equals the
cardinality of the union, over all bursts, of the burst's participant
sets: a user active in several bursts is counted once. -/
theorem c8_global_count_is_union (rows : List AttackSec) :
    globalUniqueBots rows =
      ((eventKeys rows).foldr
        (fun k acc => (burstParticipants rows k).toFinset ∪ acc) ∅).card := by
  have hset : ((taggedRows rows).flatMap (fun p => p.1.users)).toFinset =
      (eventKeys rows).foldr
        (fun k acc => (burstParticipants rows k).toFinset ∪ acc) ∅ := by
    apply Finset.ext
    intro u
    rw [List.mem_toFinset, List.mem_flatMap,
      mem_foldr_union (burstParticipants rows) (eventKeys rows) u]
    constructor
    · rintro ⟨p, hp, hu⟩
      refine ⟨eventKey p, ?_, ?_⟩
      · unfold eventKeys
        rw [List.mem_dedup, List.mem_map]
        exact ⟨p, hp, rfl⟩
      · unfold burstParticipants
        rw [List.mem_flatMap]
        exact ⟨p, List.mem_filter.mpr ⟨hp, by simp⟩, hu⟩
    · rintro ⟨k, _, hu⟩
      unfold burstParticipants at hu
      rw [List.mem_flatMap] at hu
      obtain ⟨p, hp, hu'⟩ := hu
      exact ⟨p, (List.mem_filter.mp hp).1, hu'⟩
  calc globalUniqueBots rows
      = ((taggedRows rows).flatMap (fun p => p.1.users)).toFinset.card := by
        unfold globalUniqueBots
        rw [List.card_toFinset]
    _ = _ := by rw [hset]

end RPlace
